import Mathlib

/-!
# Verification of the dusk-blockchain consensus core against its specification

Shallow embedding of the parts of the `dusk-blockchain` Go sources that the
spec claims are about:

* `pkg/core/consensus/user/bidlist.go` — bids, bid lists, subsets, serialization
* `pkg/core/consensus/selection/handler.go` — score handler (Priority / Verify)
* `src/unnamed/part_002` (`reduction` package) — reduction quorum
* `src/unnamed/part_003` (`candidate` package) — block generation timestamp
* `pkg/core/chain/chain.go` — accept-block pipeline, candidate verification,
  round-results query

Machine integers (`uint64`, `int64`) are embedded as `Nat` / `Int`, with
explicit wrap-around (`% 2^64`) in the places where the Go arithmetic can
overflow.  Byte slices are `List Byte` with `Byte := Fin 256`.  External
collaborators that are not part of the repository (the `verifiers` oracle,
the ZK proof verifier, the storage layer, the mempool, ristretto scalar
arithmetic) are passed in as explicit parameters, so every theorem states
which outputs depend on them and which do not.
-/

namespace DuskChain

/-- A byte of a Go `[]byte` slice. -/
abbrev Byte := Fin 256

/-- `user.Bid` (`bidlist.go` line 19): `type Bid [32]byte`, the 32-byte X value. -/
abbrev Bid := { l : List Byte // l.length = 32 }

/-- `Bid.Equals` (`bidlist.go` lines 22-24): `bytes.Equal(b[:], bid[:])`,
byte-for-byte equality of the two 32-byte arrays. -/
def Bid.Equals (b bid : Bid) : Bool := b.val = bid.val

theorem Bid.equals_iff (b bid : Bid) : b.Equals bid = true ↔ b = bid := by
  simp [Bid.Equals, Subtype.ext_iff]

/-- `user.BidList` (`bidlist.go` line 27): a list of bid X values. -/
abbrev BidList := List Bid

/-- `BidList.Contains` (`bidlist.go` lines 148-156): linear scan with `Equals`. -/
def BidList.ContainsBid (b : BidList) (bid : Bid) : Bool :=
  b.any (fun x => x.Equals bid)

/-- `BidList.AddBid` (`bidlist.go` lines 159-168): scan for a duplicate
(`Equals`); if one is found return the list unchanged, otherwise append. -/
def BidList.addBid (b : BidList) (bid : Bid) : BidList :=
  if b.any (fun bidFromList => bidFromList.Equals bid) then b else b ++ [bid]

end DuskChain

namespace DuskChain

/-! ## Reduction quorum (`src/unnamed/part_002`, `reduction` package) -/

/-- `maxCommitteeSize` (`part_002` line 12). -/
def maxCommitteeSize : Nat := 64

/-- `reductionHandler.Quorum` (`part_002` lines 62-64):
`int(float64(b.CommitteeSize(maxCommitteeSize)) * 0.75)`, as a function of the
committee size `n = b.CommitteeSize(maxCommitteeSize)`.  For every `n ≤ 64`
the `float64` product `n * 0.75` is the dyadic rational `3n/4` with
`3n ≤ 192`, hence exactly representable, so the Go expression computes the
exact real product and `int(...)` truncates it toward zero; the embedding
therefore evaluates the product in `ℚ` and takes the (non-negative) floor. -/
def reductionQuorum (committeeSize : Nat) : Nat :=
  ⌊(committeeSize : ℚ) * 0.75⌋₊

end DuskChain

namespace DuskChain

/-! ## Selection handler (`pkg/core/consensus/selection/handler.go`) -/

/-- A consensus score event (`selection.ScoreEvent`), restricted to the fields
`scoreHandler` reads: the 32-byte score, the ZK proof material and the
serialized bid list subset. -/
structure ScoreEvent where
  score : List Byte
  proof : List Byte
  z : List Byte
  seed : List Byte
  bidListSubset : List Byte

/-- Go `bytes.Compare`: lexicographic comparison of two byte slices, a shorter
strict prefix comparing as smaller. -/
def bytesCompare : List Byte → List Byte → Ordering
  | [], [] => .eq
  | [], _ :: _ => .lt
  | _ :: _, [] => .gt
  | a :: as', b :: bs => if a < b then .lt else if b < a then .gt else bytesCompare as' bs

/-- `scoreHandler.Priority` (`handler.go` lines 40-42):
`bytes.Compare(second.Score, first.Score) != 1`, i.e. the comparison of the
second score against the first is not `Greater`. -/
def scoreHandlerPriority (first second : ScoreEvent) : Bool :=
  bytesCompare second.score first.score ≠ .gt

/-- The value of a byte string read as a big-endian integer. -/
def beNat (l : List Byte) : Nat :=
  l.foldl (fun acc b => 256 * acc + b.val) 0

end DuskChain

namespace DuskChain

/-! ## Candidate block generation (`src/unnamed/part_003`, `candidate` package) -/

/-- `config.MaxBlockTime` (`pkg/config/consts.go` line 26): 360 seconds. -/
def MaxBlockTime : Int := 360

/-- Wrap-around of Go `int64` arithmetic. -/
def wrapI64 (x : Int) : Int := (x + 2 ^ 63) % 2 ^ 64 - 2 ^ 63

/-- The header timestamp computed by `generator.GenerateBlock`
(`part_003` lines 362-372).  `now` is the value of `time.Now().Unix()`,
`prevBlockTimestamp` the `int64` timestamp of the previous block.  The sum
`prevBlockTimestamp + config.MaxBlockTime` is an `int64` addition, hence
wrapped. -/
def generateBlockTimestamp (round : Nat) (prevBlockTimestamp now : Int) : Int :=
  let maxTimestamp := wrapI64 (prevBlockTimestamp + MaxBlockTime)
  if round > 1 ∧ prevBlockTimestamp > 0 then
    if now < prevBlockTimestamp then prevBlockTimestamp
    else if now > maxTimestamp then maxTimestamp
    else now
  else now

end DuskChain

namespace DuskChain

/-! ## Bid list serialization, validation, subsets and removal
(`pkg/core/consensus/user/bidlist.go`) -/

/-- The reading loop of `ReconstructBidListSubset` (`bidlist.go` lines
103-110): `numBids` successive 32-byte reads from the byte reader (`r.Read`
can only fail if the reader is exhausted, embedded as `none`). -/
def readBidsLoop : Nat → List Byte → Option BidList
  | 0, _ => some []
  | numBids + 1, pl =>
    if h : (pl.take 32).length = 32 then
      match readBidsLoop numBids (pl.drop 32) with
      | some rest => some (⟨pl.take 32, h⟩ :: rest)
      | none => none
    else none

/-- `ReconstructBidListSubset` (`bidlist.go` lines 95-113): reject a payload
whose length is not a multiple of 32 as "malformed bidlist", otherwise read
`len(pl)/32` bids of 32 bytes each. -/
def ReconstructBidListSubset (pl : List Byte) : Except String BidList :=
  if pl.length % 32 ≠ 0 then .error "malformed bidlist"
  else
    match readBidsLoop (pl.length / 32) pl with
    | some bl => .ok bl
    | none => .error "read error"

/-- The byte string whose 32-byte chunks are the given bids — the inverse
wire form consumed by `ReconstructBidListSubset`. -/
def serializeBidList (bl : BidList) : List Byte :=
  (bl.map Subtype.val).flatten

/-- `BidList.ValidateBids` (`bidlist.go` lines 116-129): for each `x` of the
subset, scan the receiver for an `Equals` match; fail with "invalid public
list" on the first `x` that has none. -/
def BidList.validateBids (b : BidList) : BidList → Except String Unit
  | [] => .ok ()
  | x :: rest =>
    if b.any (fun x2 => x.Equals x2) then b.validateBids rest
    else .error "invalid public list"

/-- The copy loop of `BidList.Subset` (`bidlist.go` lines 140-142):
`subset[i] = list[i]` for `i = 0, …, amount-1`; an out-of-bounds index is a
Go runtime panic, embedded as `none`. -/
def subsetLoop (list : List Bid) (i : Nat) : Nat → Option (List Bid)
  | 0 => some []
  | remaining + 1 =>
    match list.get? i with
    | none => none
    | some x =>
      match subsetLoop list (i + 1) remaining with
      | some rest => some (x :: rest)
      | none => none

/-- `BidList.Subset` (`bidlist.go` lines 133-145).  `rand.Shuffle` first
permutes the receiver in place using the global RNG; the permuted list enters
here as `shuffled` (theorems quantify over every permutation). -/
def BidList.subset (shuffled : List Bid) (amount : Nat) : Option (List Bid) :=
  subsetLoop shuffled 0 amount

/-- The in-place left shift performed by `append(list[:i], list[i+1:]...)`
inside `RemoveBid` (`bidlist.go` line 175) on a backing array `A` holding a
slice of length `len`: positions `[0, i)` keep their values, positions
`[i, len-1)` receive the values shifted down from `[i+1, len)`, and positions
from `len-1` on (the stale region beyond the shortened slice) are untouched. -/
def goRemoveShift (A : List Bid) (i len : Nat) : List Bid :=
  A.take i ++ (A.drop (i + 1)).take (len - 1 - i) ++ A.drop (len - 1)

/-- One iteration of the `RemoveBid` loop (`bidlist.go` lines 172-178) at
backing-array index `i`: the element is read from the backing array `A`; on
an `Equals` match the current slice (of length `len`) is shortened by the
in-place shift.  Re-slicing `list[i+1:]` with `i ≥ len` is a Go runtime
bounds panic, embedded as `none`. -/
def removeBidStep (bid : Bid) (st : Option (List Bid × Nat)) (i : Nat) :
    Option (List Bid × Nat) :=
  match st with
  | none => none
  | some (A, len) =>
    match A.get? i with
    | none => some (A, len)
    | some x =>
      if x.Equals bid then
        if i < len then some (goRemoveShift A i len, len - 1) else none
      else some (A, len)

/-- `BidList.RemoveBid` (`bidlist.go` lines 171-179).  The `range` clause
captures the original slice header — length `b.length` over backing array
`b` — once, while each matching iteration shifts the shared backing array in
place and stores a shortened slice back into `*b`; later iterations keep
reading the (mutated) backing array.  The final value of `*b` is the first
`len` entries of the final backing array. -/
def BidList.removeBid (b : BidList) (bid : Bid) : Option BidList :=
  match (List.range b.length).foldl (fun st i => removeBidStep bid st i)
      (some (b, b.length)) with
  | some (A, len) => some (A.take len)
  | none => none

/-- The bid lists reachable from the empty list by any sequence of `AddBid`
and (non-panicking) `RemoveBid` operations.  `Chain.addBid`
(`chain.go` lines 1290-1299) performs the same duplicate-guarded append as
`BidList.AddBid`. -/
inductive ReachableBidList : BidList → Prop
  | empty : ReachableBidList []
  | add (b : BidList) (bid : Bid) :
      ReachableBidList b → ReachableBidList (b.addBid bid)
  | remove (b b' : BidList) (bid : Bid) :
      ReachableBidList b → b.removeBid bid = some b' → ReachableBidList b'

/-! ## Selection score verification (`pkg/core/consensus/selection/handler.go`) -/

/-- `consensus.Threshold.Exceeds`.  Modelled from the spec: the `Threshold`
component (`pkg/core/consensus`) is not among the given sources; per the
spec, "A score is publishable iff it exceeds the current selection
threshold", scores being big-endian integers. -/
def thresholdExceeds (threshold : Nat) (score : List Byte) : Bool :=
  beNat score > threshold

/-- The state of `selection.scoreHandler` (`handler.go` lines 14-21): the
round's bid list and the current selection threshold. -/
structure ScoreHandler where
  bidList : BidList
  threshold : Nat

/-- `scoreHandler.validateBidListSubset` (`handler.go` lines 73-80):
deserialize the subset, then check every bid of it against the handler's bid
list. -/
def validateBidListSubset (sh : ScoreHandler) (bidListSubsetBytes : List Byte) :
    Except String Unit :=
  match ReconstructBidListSubset bidListSubsetBytes with
  | .error e => .error e
  | .ok bidListSubset => sh.bidList.validateBids bidListSubset

/-- `scoreHandler.Verify` (`handler.go` lines 44-71): threshold check, then
bid list subset validation, then ZK proof verification.  `proofVerify` stands
for `zkproof.ZkProof.Verify` of the external `dusk-zkproof` library, applied
to the proof, score, Z, bid list subset and the seed the scalar is derived
from. -/
def scoreHandlerVerify
    (proofVerify : List Byte → List Byte → List Byte → List Byte → List Byte → Bool)
    (sh : ScoreHandler) (m : ScoreEvent) : Except String Unit :=
  if ¬ thresholdExceeds sh.threshold m.score then
    .error "score does not exceed threshold"
  else
    match validateBidListSubset sh m.bidListSubset with
    | .error e => .error e
    | .ok _ =>
      if ¬ proofVerify m.proof m.score m.z m.bidListSubset m.seed then
        .error "proof verification failed"
      else .ok ()

/-- A concrete 32-byte bid (all zero bytes), used to instantiate theorems on
explicit inputs. -/
def sampleBid : Bid := ⟨List.replicate 32 0, List.length_replicate 32 0⟩

end DuskChain

namespace DuskChain

/-! ## Chain data model and accept-block pipeline
(`pkg/core/chain/chain.go`, second source variant, file lines 758-1583) -/

/-- Wrap-around of Go `uint64` arithmetic. -/
def wrap64 (n : Nat) : Nat := n % 2 ^ 64

/-- `user.Stake`: `{Amount, StartHeight, EndHeight}`, all `uint64`
(constructed at `chain.go` line 1249). -/
structure Stake where
  amount : Nat
  startHeight : Nat
  endHeight : Nat
deriving DecidableEq

/-- `user.Member`: a provisioner — its 129-byte BLS public key and its list
of stakes.  The `user` package is not among the sources; modelled from the
spec: a Provisioner is a "BLS public key (129 bytes), list of
`Stake{amount, start_height, end_height}`"; `AddStake` appends to the list
and `RemoveStake i` deletes index `i`. -/
structure Member where
  publicKeyBLS : List Byte
  stakes : List Stake
deriving DecidableEq

/-- `Member.AddStake`: append the new stake. -/
def Member.addStake (m : Member) (s : Stake) : Member :=
  { m with stakes := m.stakes ++ [s] }

/-- `user.Provisioners`: the `Members` map keyed by the BLS key bytes plus
the sorted key `Set`; embedded as the list of members (the claims quantify
over all members, so the map's iteration order is irrelevant). -/
structure Provisioners where
  members : List Member
deriving DecidableEq

/-- `block.Certificate`, kept opaque: the chain claims only move
certificates around and hand them to the external certificate verifier. -/
structure Certificate where
  payload : List Byte
deriving DecidableEq

/-- The transactions `Chain.addConsensusNodes` (`chain.go` lines 1114-1124)
distinguishes: `StakeType` (BLS key, amount, lock time), `BidType`, and
everything else. -/
inductive Tx where
  | stake (pubKeyBLS : List Byte) (amount : Nat) (lock : Nat)
  | bid (commitment : List Byte) (m : List Byte) (lock : Nat)
  | other
deriving DecidableEq

/-- `block.Block`, restricted to the fields the chain claims read: header
height, hash, the attached certificate and the transaction list. -/
structure Block where
  height : Nat
  hash : List Byte
  cert : Certificate
  txs : List Tx
deriving DecidableEq

/-- `message.Candidate`: a candidate block paired with a certificate. -/
structure Candidate where
  block : Block
  cert : Certificate
deriving DecidableEq

/-- The chain state the claims read and write: `c.prevBlock`,
`c.intermediateBlock` and the provisioner set `c.p`.  The bid list
(`c.bidList`) is a disjoint state component modelled separately with
`pkg/core/consensus/user/bidlist.go`; the database, event bus and candidate
store are external collaborators. -/
structure ChainState where
  prevBlock : Block
  intermediateBlock : Option Block
  p : Provisioners
deriving DecidableEq

/-- `Chain.addProvisioner` (`chain.go` lines 1243-1268): reject keys that are
not 129 bytes long; add the stake to the already-known member with that key,
or insert a fresh member holding only the new stake. -/
def addProvisioner (p : Provisioners) (pubKeyBLS : List Byte)
    (amount startHeight endHeight : Nat) : Except String Provisioners :=
  if pubKeyBLS.length ≠ 129 then
    .error "public key is not 129 bytes long"
  else
    let stake : Stake := ⟨amount, startHeight, endHeight⟩
    if p.members.any (fun m => m.publicKeyBLS = pubKeyBLS) then
      .ok ⟨p.members.map (fun m =>
        if m.publicKeyBLS = pubKeyBLS then m.addStake stake else m)⟩
    else
      .ok ⟨p.members ++ [⟨pubKeyBLS, [stake]⟩]⟩

/-- `Chain.addConsensusNodes` (`chain.go` lines 1110-1126): for every stake
transaction, add a stake with the given start height and end height
`startHeight + stake.Lock - 2` computed in `uint64`; `addProvisioner` errors
are logged and skipped.  Bid transactions only touch the bid list
(`addBidder`), which lies outside the modelled state. -/
def addConsensusNodes (p : Provisioners) (txs : List Tx) (startHeight : Nat) :
    Provisioners :=
  txs.foldl (fun p tx =>
    match tx with
    | .stake pubKeyBLS amount lock =>
      match addProvisioner p pubKeyBLS amount startHeight
          (wrap64 (startHeight + lock + 2 ^ 64 - 2)) with
      | .ok p' => p'
      | .error _ => p
    | _ => p) p

/-- The index of the first stake with `EndHeight < round`, as scanned by the
inner loop of `removeExpiredProvisioners` (`chain.go` lines 1227-1238). -/
def firstExpiredIdx (round : Nat) : List Stake → Option Nat
  | [] => none
  | s :: rest =>
    if s.endHeight < round then some 0
    else
      match firstExpiredIdx round rest with
      | none => none
      | some i => some (i + 1)

/-- The inner loop of `removeExpiredProvisioners` (`chain.go` lines
1227-1238): scan the stakes from index 0, and whenever one with
`EndHeight < round` is found, remove it (`Member.RemoveStake`) and restart
the scan (`i = -1`).  Each pass removes one stake, so `stakes.length` passes
always suffice (the fuel). -/
def removeExpiredStakesFuel (round : Nat) : Nat → List Stake → List Stake
  | 0, stakes => stakes
  | fuel + 1, stakes =>
    match firstExpiredIdx round stakes with
    | none => stakes
    | some i => removeExpiredStakesFuel round fuel (stakes.eraseIdx i)

def removeExpiredStakes (round : Nat) (stakes : List Stake) : List Stake :=
  removeExpiredStakesFuel round stakes.length stakes

/-- `Chain.removeExpiredProvisioners` (`chain.go` lines 1225-1240): drop
every stake with `EndHeight < round` from every member, and delete a member
from the map as soon as its stake list becomes empty during the scan (a
member whose list was empty on entry is never touched by the loop). -/
def removeExpiredProvisioners (p : Provisioners) (round : Nat) : Provisioners :=
  ⟨p.members.filterMap (fun m =>
    let m' : Member := { m with stakes := removeExpiredStakes round m.stakes }
    if m'.stakes.isEmpty ∧ ¬ m.stakes.isEmpty then none else some m')⟩

/-- `Chain.AcceptBlock` (`chain.go` lines 1019-1090), step by step:
1. `verifiers.CheckBlock(c.db, c.prevBlock, blk)` — the external verifier is
   the oracle `checkBlock`; on error return it unchanged (line 1029);
2. `verifiers.CheckBlockCertificate(*c.p, blk)` — oracle `checkCert`
   (line 1039);
3. `c.addConsensusNodes(blk.Txs, blk.Header.Height+2)` (line 1052);
4. store the block — outcome `store`; on failure the method returns with the
   consensus nodes of step 3 already added, as the Go receiver was already
   mutated (lines 1056-1063);
5. `c.prevBlock = blk` (line 1065); `advertiseBlock` (line 1069) only panics
   on marshalling failures and otherwise returns nil;
6. `c.removeExpiredProvisioners(blk.Header.Height)` (line 1076);
   `removeExpiredBids` (line 1077) touches only the bid list, outside the
   modelled state;
7. event publication (lines 1085-1086) does not alter this state. -/
def acceptBlock (checkBlock : Block → Block → Except String Unit)
    (checkCert : Provisioners → Block → Except String Unit)
    (store : Except String Unit) (st : ChainState) (blk : Block) :
    ChainState × Except String Unit :=
  match checkBlock st.prevBlock blk with
  | .error e => (st, .error e)
  | .ok _ =>
    match checkCert st.p blk with
    | .error e => (st, .error e)
    | .ok _ =>
      let p1 := addConsensusNodes st.p blk.txs (wrap64 (blk.height + 2))
      match store with
      | .error e => ({ st with p := p1 }, .error e)
      | .ok _ =>
        let st' : ChainState :=
          { st with prevBlock := blk, p := removeExpiredProvisioners p1 blk.height }
        (st', .ok ())

/-- `Chain.processCandidateVerificationRequest` (`chain.go` lines 1128-1140):
with no intermediate block held, answer the request with the error
"no intermediate block hash known" and perform no verification; otherwise
answer with the outcome of `verifiers.CheckBlock` run with the intermediate
block as the candidate's predecessor. -/
def processCandidateVerificationRequest
    (checkBlock : Block → Block → Except String Unit)
    (st : ChainState) (cm : Candidate) : Except String Unit :=
  match st.intermediateBlock with
  | none => .error "no intermediate block hash known"
  | some ib => checkBlock ib cm.block

/-- `Chain.verifyCandidateBlock` of the third source variant (`chain.go`
lines 1924-1931): fetch the candidate block for the given hash from the
database (`fetchCandidateBlock`, lines 1913-1922 — an external storage read,
the oracle `fetch`), propagating its error, and otherwise verify the
candidate with `verifiers.CheckBlock` against `c.prevBlock`.  This variant's
`Chain` holds no intermediate block; the state's `intermediateBlock` field is
never read. -/
def verifyCandidateBlock (fetch : List Byte → Except String Block)
    (checkBlock : Block → Block → Except String Unit)
    (st : ChainState) (hash : List Byte) : Except String Unit :=
  match fetch hash with
  | .error e => .error e
  | .ok candidate => checkBlock st.prevBlock candidate

/-- A block verifier oracle that accepts exactly when the predecessor it is
given is at height 4 — used to exhibit that `verifyCandidateBlock`'s verdict
is a function of `prev_block`. -/
def oracleHeight4Block : Block → Block → Except String Unit :=
  fun prev _ => if prev.height = 4 then .ok () else .error "VerificationFailed"

/-- `Chain.requestRoundResults` (`chain.go` lines 1365-1409), the
`select` loop: `responses` is the finite sequence of `Candidate` payloads
arriving on the `RoundResults` channel before the 5-second timer fires, in
arrival order.  Each response's block is checked by `verifiers.CheckBlock`
against `c.prevBlock`; then the response's certificate is set on the block
(line 1401) and checked by `verifiers.CheckBlockCertificate` against `c.p`;
a response failing either check is skipped (`continue`).  When the timer
fires first the loop returns the "request timeout" error. -/
def requestRoundResultsLoop (checkBlock : Block → Block → Except String Unit)
    (checkCert : Provisioners → Block → Except String Unit)
    (st : ChainState) : List Candidate → Except String (Block × Certificate)
  | [] => .error "request timeout"
  | cm :: rest =>
    match checkBlock st.prevBlock cm.block with
    | .error _ => requestRoundResultsLoop checkBlock checkCert st rest
    | .ok _ =>
      let blk : Block := { cm.block with cert := cm.cert }
      match checkCert st.p blk with
      | .error _ => requestRoundResultsLoop checkBlock checkCert st rest
      | .ok _ => .ok (blk, cm.cert)

/-- `Chain.requestRoundResults` as a state transformer: the method reads but
never writes the chain state (`chain.go` lines 1365-1409 contain no
assignment to any `c.*` field). -/
def requestRoundResults (checkBlock : Block → Block → Except String Unit)
    (checkCert : Provisioners → Block → Except String Unit)
    (st : ChainState) (responses : List Candidate) :
    ChainState × Except String (Block × Certificate) :=
  (st, requestRoundResultsLoop checkBlock checkCert st responses)

/-- Whether `requestRoundResults` accepts a response: the block passes
`CheckBlock` against `prevBlock` and, with the certificate attached, passes
`CheckBlockCertificate` against the provisioners. -/
def rrPasses (checkBlock : Block → Block → Except String Unit)
    (checkCert : Provisioners → Block → Except String Unit)
    (st : ChainState) (cm : Candidate) : Bool :=
  (match checkBlock st.prevBlock cm.block with
    | .ok _ => true
    | .error _ => false) &&
  (match checkCert st.p { cm.block with cert := cm.cert } with
    | .ok _ => true
    | .error _ => false)

/-- The stake-origin invariant used for C1: every stake of every member of
`p` either already belonged to some member of `p0` or has the given start
height. -/
def StakesFrom (p0 : Provisioners) (startHeight : Nat) (p : Provisioners) : Prop :=
  ∀ m' ∈ p.members, ∀ s ∈ m'.stakes,
    (∃ m ∈ p0.members, s ∈ m.stakes) ∨ s.startHeight = startHeight

/-- A concrete 129-byte BLS key (all zero bytes). -/
def sampleKey : List Byte := List.replicate 129 0

/-- A concrete block at height 5 carrying one stake transaction. -/
def sampleBlock : Block :=
  { height := 5, hash := [], cert := ⟨[]⟩, txs := [Tx.stake sampleKey 100 10] }

/-- A concrete chain state with no intermediate block and no provisioners. -/
def sampleState : ChainState :=
  { prevBlock := { height := 4, hash := [], cert := ⟨[]⟩, txs := [] },
    intermediateBlock := none, p := ⟨[]⟩ }

/-- A concrete candidate message. -/
def sampleCandidate : Candidate := ⟨sampleBlock, ⟨[]⟩⟩

/-- An always-accepting block verifier oracle. -/
def oracleOkBlock : Block → Block → Except String Unit := fun _ _ => .ok ()

/-- An always-accepting certificate verifier oracle. -/
def oracleOkCert : Provisioners → Block → Except String Unit := fun _ _ => .ok ()

end DuskChain

namespace DuskChain

/-! ## Big-endian reading of byte strings -/

theorem beNat_foldl (l : List Byte) (acc : Nat) :
    l.foldl (fun acc b => 256 * acc + b.val) acc = acc * 256 ^ l.length + beNat l := by
  induction l generalizing acc with
  | nil => simp [beNat]
  | cons b l ih =>
    have hb : beNat (b :: l) = b.val * 256 ^ l.length + beNat l := by
      show List.foldl _ (256 * 0 + b.val) l = _
      rw [ih]
      ring_nf
    simp only [List.foldl_cons, List.length_cons]
    rw [ih, hb]
    ring

theorem beNat_cons (b : Byte) (l : List Byte) :
    beNat (b :: l) = b.val * 256 ^ l.length + beNat l := by
  show List.foldl _ (256 * 0 + b.val) l = _
  rw [beNat_foldl]
  ring_nf

theorem beNat_lt_pow (l : List Byte) : beNat l < 256 ^ l.length := by
  induction l with
  | nil => simp [beNat]
  | cons b l ih =>
    rw [beNat_cons, List.length_cons, pow_succ']
    calc b.val * 256 ^ l.length + beNat l
        < b.val * 256 ^ l.length + 256 ^ l.length := by omega
      _ = (b.val + 1) * 256 ^ l.length := by ring
      _ ≤ 256 * 256 ^ l.length := by
          have : b.val + 1 ≤ 256 := b.isLt
          exact Nat.mul_le_mul_right _ this

/-- For byte strings of equal length, Go's `bytes.Compare` returns `Greater`
exactly when the first string is the larger big-endian integer. -/
theorem bytesCompare_gt_iff (a b : List Byte) (h : a.length = b.length) :
    bytesCompare a b = Ordering.gt ↔ beNat b < beNat a := by
  induction a generalizing b with
  | nil =>
    cases b with
    | nil => simp [bytesCompare, beNat]
    | cons y ys => simp at h
  | cons x xs ih =>
    cases b with
    | nil => simp at h
    | cons y ys =>
      have hlen : xs.length = ys.length := by simpa using h
      rw [beNat_cons, beNat_cons, hlen]
      by_cases hxy : x < y
      · have hv : (x.val + 1) ≤ y.val := hxy
        have hbound := beNat_lt_pow xs
        simp only [bytesCompare, if_pos hxy]
        constructor
        · intro hc; cases hc
        · intro hlt
          exfalso
          have : x.val * 256 ^ ys.length + beNat xs < y.val * 256 ^ ys.length + beNat ys := by
            calc x.val * 256 ^ ys.length + beNat xs
                < x.val * 256 ^ ys.length + 256 ^ ys.length := by rw [← hlen]; omega
              _ = (x.val + 1) * 256 ^ ys.length := by ring
              _ ≤ y.val * 256 ^ ys.length := Nat.mul_le_mul_right _ hv
              _ ≤ y.val * 256 ^ ys.length + beNat ys := Nat.le_add_right _ _
          omega
      · by_cases hyx : y < x
        · have hv : (y.val + 1) ≤ x.val := hyx
          have hbound := beNat_lt_pow ys
          simp only [bytesCompare, if_neg hxy, if_pos hyx]
          constructor
          · intro _
            calc y.val * 256 ^ ys.length + beNat ys
                < y.val * 256 ^ ys.length + 256 ^ ys.length := by omega
              _ = (y.val + 1) * 256 ^ ys.length := by ring
              _ ≤ x.val * 256 ^ ys.length := Nat.mul_le_mul_right _ hv
              _ ≤ x.val * 256 ^ ys.length + beNat xs := Nat.le_add_right _ _
          · intro _; trivial
        · have hxyv : x.val = y.val := by
            have h1 : ¬ x.val < y.val := hxy
            have h2 : ¬ y.val < x.val := hyx
            omega
          simp only [bytesCompare, if_neg hxy, if_neg hyx]
          rw [ih ys hlen, hxyv]
          omega

end DuskChain

namespace DuskChain

/-- C4: the reduction quorum is 75% of the committee size rounded down: for
every committee size `n ≤ 64`, `reductionHandler.Quorum()` returns exactly
`⌊0.75 · n⌋` (written as the integer division `3 * n / 4`). -/
theorem claim_C4_reduction_quorum (n : Nat) (h : n ≤ 64) :
    reductionQuorum n = 3 * n / 4 := by
  unfold reductionQuorum
  have hq : (n : ℚ) * 0.75 = ((3 * n : ℕ) : ℚ) / ((4 : ℕ) : ℚ) := by
    push_cast
    ring
  rw [hq, Nat.floor_div_nat, Nat.floor_natCast]

/-- Witness for C4 at the full committee size 64: the quorum is 48. -/
theorem claim_C4_witness : 64 ≤ 64 ∧ reductionQuorum 64 = 3 * 64 / 4 :=
  ⟨le_refl 64, claim_C4_reduction_quorum 64 (le_refl 64)⟩

/-- C6: the selection handler's `Priority` orders score events so that the
higher score wins: `Priority(first, second)` returns true exactly when
`first`'s 32-byte score, read as a big-endian integer, is greater than or
equal to `second`'s score. -/
theorem claim_C6_priority_big_endian (first second : ScoreEvent)
    (h1 : first.score.length = 32) (h2 : second.score.length = 32) :
    scoreHandlerPriority first second = true ↔
      beNat second.score ≤ beNat first.score := by
  have hlen : second.score.length = first.score.length := by rw [h1, h2]
  have hgt := bytesCompare_gt_iff second.score first.score hlen
  simp only [scoreHandlerPriority, ne_eq, decide_eq_true_eq]
  rw [not_iff_comm, hgt]
  omega

/-- Witness for C6: two concrete 32-byte scores, `0x00…01` and `0x00…00`;
the event with the larger big-endian score has priority. -/
theorem claim_C6_witness :
    scoreHandlerPriority
      ⟨List.replicate 31 (0 : Byte) ++ [(1 : Byte)], [], [], [], []⟩
      ⟨List.replicate 32 (0 : Byte), [], [], [], []⟩ = true ↔
    beNat (List.replicate 32 (0 : Byte)) ≤
      beNat (List.replicate 31 (0 : Byte) ++ [(1 : Byte)]) :=
  claim_C6_priority_big_endian _ _ (by simp) (by simp)

/-- C7 counterexample: the claim "for every round and every previous block
timestamp `p`, the generated timestamp `t` satisfies `p ≤ t ≤ p + 360`" is
false on the code: at round 1 (or non-positive previous timestamp) the clamp
in `GenerateBlock` is skipped, so with `p = 1000` and a clock reading of `0`
the generated timestamp is `0 < p`. -/
theorem claim_C7_counterexample :
    ¬ ∀ (round : Nat) (p now : Int),
        p ≤ generateBlockTimestamp round p now ∧
        generateBlockTimestamp round p now ≤ p + MaxBlockTime := by
  intro hall
  have h := (hall 1 1000 0).1
  norm_num [generateBlockTimestamp] at h

/-- C7 (amended): for every round strictly greater than 1 and every positive
previous block timestamp `p` (not overflowing `int64` when 360 s are added),
the candidate header timestamp `t` computed by `GenerateBlock` satisfies
`p ≤ t` and `t ≤ p + MaxBlockTime`, whatever the wall clock reads. -/
theorem claim_C7_timestamp_clamped (round : Nat) (p now : Int)
    (hround : 1 < round) (hp : 0 < p)
    (hbound : p + MaxBlockTime ≤ 2 ^ 63 - 1) :
    p ≤ generateBlockTimestamp round p now ∧
    generateBlockTimestamp round p now ≤ p + MaxBlockTime := by
  have h63 : (2 : Int) ^ 63 = 9223372036854775808 := by norm_num
  have h64 : (2 : Int) ^ 64 = 18446744073709551616 := by norm_num
  have hmax : MaxBlockTime = 360 := rfl
  have hwrap : wrapI64 (p + MaxBlockTime) = p + MaxBlockTime := by
    unfold wrapI64
    rw [hmax] at hbound ⊢
    rw [h63, h64] at *
    omega
  simp only [generateBlockTimestamp]
  rw [if_pos ⟨hround, hp⟩, hwrap]
  rw [hmax] at hbound ⊢
  split_ifs <;> omega

/-- Witness for C7 (amended) at round 2, previous timestamp 1000 and clock
reading 500: the timestamp is clamped up to 1000. -/
theorem claim_C7_witness :
    1 < 2 ∧ (0 : Int) < 1000 ∧ (1000 : Int) + MaxBlockTime ≤ 2 ^ 63 - 1 ∧
    (1000 ≤ generateBlockTimestamp 2 1000 500 ∧
      generateBlockTimestamp 2 1000 500 ≤ 1000 + MaxBlockTime) :=
  ⟨by norm_num, by norm_num, by norm_num [MaxBlockTime],
    claim_C7_timestamp_clamped 2 1000 500 (by norm_num) (by norm_num)
      (by norm_num [MaxBlockTime])⟩

end DuskChain

namespace DuskChain

/-! ## Bid list lemmas -/

theorem containsBid_iff (b : BidList) (bid : Bid) :
    b.ContainsBid bid = true ↔ bid ∈ b := by
  simp [BidList.ContainsBid, List.any_eq_true, Bid.equals_iff]

theorem serializeBidList_cons (bid : Bid) (bl : BidList) :
    serializeBidList (bid :: bl) = bid.val ++ serializeBidList bl := by
  simp [serializeBidList]

theorem serializeBidList_length (bl : BidList) :
    (serializeBidList bl).length = 32 * bl.length := by
  induction bl with
  | nil => simp [serializeBidList]
  | cons bid bl ih =>
    rw [serializeBidList_cons]
    simp only [List.length_append, List.length_cons, ih, bid.property]
    ring

theorem readBidsLoop_serialize (bl : BidList) :
    readBidsLoop bl.length (serializeBidList bl) = some bl := by
  induction bl with
  | nil => rfl
  | cons bid bl ih =>
    have htake : (serializeBidList (bid :: bl)).take 32 = bid.val := by
      rw [serializeBidList_cons]
      exact List.take_left' bid.property
    have hdrop : (serializeBidList (bid :: bl)).drop 32 = serializeBidList bl := by
      rw [serializeBidList_cons]
      exact List.drop_left' bid.property
    show readBidsLoop (bl.length + 1) (serializeBidList (bid :: bl)) = some (bid :: bl)
    simp only [readBidsLoop, htake, hdrop, ih, bid.property, dite_true]

theorem readBidsLoop_isSome (k : Nat) :
    ∀ pl : List Byte, pl.length = 32 * k → ∃ bl, readBidsLoop k pl = some bl := by
  induction k with
  | zero => intro pl _; exact ⟨[], rfl⟩
  | succ k ih =>
    intro pl hlen
    have htake : (pl.take 32).length = 32 := by
      rw [List.length_take]
      omega
    have hdrop : (pl.drop 32).length = 32 * k := by
      rw [List.length_drop]
      omega
    obtain ⟨bl, hbl⟩ := ih (pl.drop 32) hdrop
    exact ⟨⟨pl.take 32, htake⟩ :: bl, by simp only [readBidsLoop, htake, hbl, dite_true]⟩

/-- C9: `ReconstructBidListSubset` fails exactly on payloads whose length is
not a multiple of 32, and reading back the concatenation of the 32-byte
values of any sequence of bids returns that same sequence in order. -/
theorem claim_C9_reconstruct_roundtrip :
    (∀ pl : List Byte,
      (∃ e, ReconstructBidListSubset pl = .error e) ↔ pl.length % 32 ≠ 0) ∧
    (∀ bl : BidList, ReconstructBidListSubset (serializeBidList bl) = .ok bl) := by
  constructor
  · intro pl
    constructor
    · rintro ⟨e, he⟩ hmod
      unfold ReconstructBidListSubset at he
      rw [if_neg (by simpa using hmod)] at he
      obtain ⟨bl, hbl⟩ := readBidsLoop_isSome (pl.length / 32) pl (by omega)
      rw [hbl] at he
      cases he
    · intro hmod
      refine ⟨"malformed bidlist", ?_⟩
      unfold ReconstructBidListSubset
      rw [if_pos (by simpa using hmod)]
  · intro bl
    unfold ReconstructBidListSubset
    have hlen := serializeBidList_length bl
    rw [if_neg (by simp [hlen])]
    have hdiv : (serializeBidList bl).length / 32 = bl.length := by
      rw [hlen]
      omega
    rw [hdiv, readBidsLoop_serialize]

/-- Witness for C9: the serialized form of the one-element list `[sampleBid]`
reads back to itself, and the 1-byte payload `[0]` is rejected. -/
theorem claim_C9_witness :
    ReconstructBidListSubset (serializeBidList [sampleBid]) = .ok [sampleBid] ∧
    (∃ e, ReconstructBidListSubset [(0 : Byte)] = .error e) :=
  ⟨claim_C9_reconstruct_roundtrip.2 [sampleBid],
    (claim_C9_reconstruct_roundtrip.1 [(0 : Byte)]).mpr (by decide)⟩

theorem subsetLoop_some (list : List Bid) :
    ∀ remaining i : Nat, i + remaining ≤ list.length →
      ∃ sub, subsetLoop list i remaining = some sub ∧
        sub.length = remaining ∧ ∀ x ∈ sub, x ∈ list := by
  intro remaining
  induction remaining with
  | zero => exact fun i _ => ⟨[], rfl, rfl, by simp⟩
  | succ rem ih =>
    intro i h
    have hi : i < list.length := by omega
    obtain ⟨sub, hsub, hlen, hmem⟩ := ih (i + 1) (by omega)
    refine ⟨list.get ⟨i, hi⟩ :: sub, ?_, by simp [hlen], ?_⟩
    · simp only [subsetLoop, List.get?_eq_get hi, hsub]
    · intro x hx
      rcases List.mem_cons.mp hx with rfl | hx'
      · exact List.get_mem list i hi
      · exact hmem x hx'

theorem subsetLoop_none (list : List Bid) :
    ∀ remaining i : Nat, 1 ≤ remaining → list.length < i + remaining →
      subsetLoop list i remaining = none := by
  intro remaining
  induction remaining with
  | zero => intro i h; omega
  | succ rem ih =>
    intro i _ hlt
    by_cases hi : i < list.length
    · have hrem : 1 ≤ rem := by omega
      simp only [subsetLoop, List.get?_eq_get hi, ih (i + 1) hrem (by omega)]
    · have hget : list.get? i = none := List.get?_eq_none.mpr (by omega)
      simp only [subsetLoop, hget]

/-- C10: for every bid list `b` and every `amount ≤ |b|`, `Subset` (after the
in-place shuffle, an arbitrary permutation of `b`) returns exactly `amount`
bids, each an element of `b`; as soon as `amount` exceeds `|b|`, the indexing
loop reads out of bounds (a Go panic), which is why the precondition is
required. -/
theorem claim_C10_subset_bounds (b shuffled : List Bid)
    (hperm : shuffled.Perm b) (amount : Nat) :
    (amount ≤ b.length →
      ∃ sub, BidList.subset shuffled amount = some sub ∧
        sub.length = amount ∧ ∀ x ∈ sub, x ∈ b) ∧
    (b.length < amount → BidList.subset shuffled amount = none) := by
  have hlen := hperm.length_eq
  constructor
  · intro hle
    obtain ⟨sub, h1, h2, h3⟩ := subsetLoop_some shuffled amount 0 (by omega)
    exact ⟨sub, h1, h2, fun x hx => hperm.mem_iff.mp (h3 x hx)⟩
  · intro hgt
    exact subsetLoop_none shuffled amount 0 (by omega) (by omega)

/-- Witness for C10: on the singleton list `[sampleBid]` (identity shuffle)
with `amount = 1`, `Subset` returns one bid from the list. -/
theorem claim_C10_witness :
    ∃ sub, BidList.subset [sampleBid] 1 = some sub ∧
      sub.length = 1 ∧ ∀ x ∈ sub, x ∈ [sampleBid] :=
  (claim_C10_subset_bounds [sampleBid] [sampleBid] (List.Perm.refl _) 1).1
    (by simp)

end DuskChain

namespace DuskChain

/-! ## Removal loop analysis and the uniqueness invariant -/

theorem foldlInvariant {α β : Type} (P : β → Prop) (f : β → α → β)
    (l : List α) (init : β) (h0 : P init) (hstep : ∀ b a, P b → P (f b a)) :
    P (l.foldl f init) := by
  induction l generalizing init with
  | nil => exact h0
  | cons a l ih => exact ih (f init a) (hstep init a h0)

theorem goRemoveShift_take (A : List Bid) (i len : Nat)
    (hi : i < len) (hlen : len ≤ A.length) :
    (goRemoveShift A i len).take (len - 1) = (A.take len).eraseIdx i := by
  have h1 : (A.take i).length = i := by
    rw [List.length_take]
    omega
  have h2 : ((A.drop (i + 1)).take (len - 1 - i)).length = len - 1 - i := by
    rw [List.length_take, List.length_drop]
    omega
  have hgroup : goRemoveShift A i len =
      (A.take i ++ (A.drop (i + 1)).take (len - 1 - i)) ++ A.drop (len - 1) := by
    unfold goRemoveShift
    rw [List.append_assoc]
  have hXlen : (A.take i ++ (A.drop (i + 1)).take (len - 1 - i)).length = len - 1 := by
    rw [List.length_append, h1, h2]
    omega
  have ht4 : len - (i + 1) = len - 1 - i := by omega
  rw [hgroup, List.take_left' hXlen, List.eraseIdx_eq_take_drop_succ,
    List.take_take, min_eq_left (by omega), List.drop_take len (i + 1) A, ht4]

/-- Invariant carried through the `RemoveBid` loop: the current slice (the
first `len` entries of the backing array) stays within bounds and is a
sublist of the original list. -/
def RemoveBidInv (b : BidList) (st : Option (List Bid × Nat)) : Prop :=
  ∀ A len, st = some (A, len) → len ≤ A.length ∧ List.Sublist (A.take len) b

theorem removeBidStep_inv (b : BidList) (bid : Bid) (i : Nat)
    (st : Option (List Bid × Nat)) (h : RemoveBidInv b st) :
    RemoveBidInv b (removeBidStep bid st i) := by
  cases st with
  | none => intro A len hst; cases hst
  | some p =>
    obtain ⟨A, len⟩ := p
    obtain ⟨hle, hsub⟩ := h A len rfl
    intro A' len' hst
    cases hget : A.get? i with
    | none =>
      simp only [removeBidStep, hget] at hst
      cases hst
      exact ⟨hle, hsub⟩
    | some x =>
      simp only [removeBidStep, hget] at hst
      by_cases heq : x.Equals bid = true
      · rw [if_pos heq] at hst
        by_cases hi : i < len
        · rw [if_pos hi] at hst
          cases hst
          have htake := goRemoveShift_take A i len hi hle
          have hlenTake : ((goRemoveShift A i len).take (len - 1)).length = len - 1 := by
            rw [htake]
            have hlt : i < (A.take len).length := by
              rw [List.length_take]
              omega
            have hh := List.length_eraseIdx_add_one hlt
            rw [List.length_take] at hh
            omega
          constructor
          · rw [List.length_take] at hlenTake
            omega
          · rw [htake]
            exact List.Sublist.trans (List.eraseIdx_sublist _ i) hsub
        · rw [if_neg hi] at hst
          cases hst
      · rw [if_neg heq] at hst
        cases hst
        exact ⟨hle, hsub⟩

theorem removeBid_sublist (b b' : BidList) (bid : Bid)
    (h : b.removeBid bid = some b') : List.Sublist b' b := by
  unfold BidList.removeBid at h
  have hinv := foldlInvariant (RemoveBidInv b) (fun st i => removeBidStep bid st i)
    (List.range b.length) (some (b, b.length))
    (by
      intro A len hst
      cases hst
      exact ⟨le_refl _, by rw [List.take_length]⟩)
    (fun st i hst => removeBidStep_inv b bid i st hst)
  cases hfold : (List.range b.length).foldl (fun st i => removeBidStep bid st i)
      (some (b, b.length)) with
  | none => rw [hfold] at h; cases h
  | some p =>
    obtain ⟨A, len⟩ := p
    rw [hfold] at h hinv
    obtain ⟨_, hsub⟩ := hinv A len rfl
    cases h
    exact hsub

/-- C8: `AddBid` on a list that already contains the bid leaves the list
unchanged (in particular it is idempotent), and every bid list reachable from
the empty list by `AddBid` / `RemoveBid` operations has pairwise-distinct
entries. -/
theorem claim_C8_bidlist_unique :
    (∀ (b : BidList) (bid : Bid), b.ContainsBid bid = true → b.addBid bid = b) ∧
    (∀ (b : BidList) (bid : Bid), (b.addBid bid).addBid bid = b.addBid bid) ∧
    (∀ b : BidList, ReachableBidList b → b.Nodup) := by
  have hadd : ∀ (b : BidList) (bid : Bid), b.ContainsBid bid = true → b.addBid bid = b := by
    intro b bid h
    unfold BidList.ContainsBid at h
    unfold BidList.addBid
    rw [if_pos h]
  have hmem : ∀ (b : BidList) (bid : Bid),
      b.any (fun bidFromList => bidFromList.Equals bid) = true ↔ bid ∈ b := by
    intro b bid
    simp [List.any_eq_true, Bid.equals_iff]
  refine ⟨hadd, ?_, ?_⟩
  · intro b bid
    apply hadd
    unfold BidList.ContainsBid
    rw [hmem]
    unfold BidList.addBid
    by_cases hc : b.any (fun bidFromList => bidFromList.Equals bid) = true
    · rw [if_pos hc]
      exact (hmem b bid).mp hc
    · rw [if_neg hc]
      simp
  · intro b hreach
    induction hreach with
    | empty => exact List.nodup_nil
    | add b bid _ ih =>
      unfold BidList.addBid
      by_cases hc : b.any (fun bidFromList => bidFromList.Equals bid) = true
      · rw [if_pos hc]
        exact ih
      · rw [if_neg hc]
        rw [List.nodup_append]
        refine ⟨ih, List.nodup_singleton bid, ?_⟩
        intro a ha hmem'
        rw [List.mem_singleton] at hmem'
        subst hmem'
        exact hc ((hmem b a).mpr ha)
    | remove b b' bid _ hrem ih =>
      exact List.Nodup.sublist (removeBid_sublist b b' bid hrem) ih

/-- Witness for C8: adding the sample bid to a singleton list already holding
it is a no-op, and the list obtained from the empty list by one `AddBid` is
duplicate-free. -/
theorem claim_C8_witness :
    (BidList.addBid [sampleBid] sampleBid = [sampleBid]) ∧
    (BidList.addBid [] sampleBid).Nodup :=
  ⟨claim_C8_bidlist_unique.1 [sampleBid] sampleBid (by decide),
    claim_C8_bidlist_unique.2.2 _ (ReachableBidList.add [] sampleBid ReachableBidList.empty)⟩

end DuskChain

namespace DuskChain

/-! ## Score verification lemmas -/

theorem validateBids_ok (b : BidList) :
    ∀ subset : BidList, b.validateBids subset = .ok () →
      ∀ x ∈ subset, x ∈ b := by
  intro subset
  induction subset with
  | nil => intro _ x hx; cases hx
  | cons y rest ih =>
    intro h x hx
    unfold BidList.validateBids at h
    by_cases hany : (b.any fun x2 => y.Equals x2) = true
    · rw [if_pos hany] at h
      rcases List.mem_cons.mp hx with rfl | hx'
      · have : ∃ x2 ∈ b, x = x2 := by
          simpa [List.any_eq_true, Bid.equals_iff] using hany
        obtain ⟨x2, hx2, rfl⟩ := this
        exact hx2
      · exact ih h x hx'
    · rw [if_neg hany] at h
      cases h

/-- C5: `scoreHandler.Verify` rejects every score event whose score does not
exceed the current selection threshold (so such an event is dropped without
aggregation), and it returns nil only if, additionally, every bid of the
event's bid-list subset belongs to the handler's bid list and the
zero-knowledge proof verifies against the seed. -/
theorem claim_C5_score_verify
    (pv : List Byte → List Byte → List Byte → List Byte → List Byte → Bool)
    (sh : ScoreHandler) (m : ScoreEvent) :
    (thresholdExceeds sh.threshold m.score = false →
      scoreHandlerVerify pv sh m = .error "score does not exceed threshold") ∧
    (scoreHandlerVerify pv sh m = .ok () →
      thresholdExceeds sh.threshold m.score = true ∧
      (∃ subset, ReconstructBidListSubset m.bidListSubset = .ok subset ∧
        ∀ x ∈ subset, x ∈ sh.bidList) ∧
      pv m.proof m.score m.z m.bidListSubset m.seed = true) := by
  constructor
  · intro h
    unfold scoreHandlerVerify
    rw [if_pos (by simp [h])]
  · intro h
    unfold scoreHandlerVerify at h
    by_cases hte : thresholdExceeds sh.threshold m.score = true
    · rw [if_neg (by simp [hte])] at h
      cases hval : validateBidListSubset sh m.bidListSubset with
      | error e => rw [hval] at h; cases h
      | ok u =>
        rw [hval] at h
        by_cases hpv : pv m.proof m.score m.z m.bidListSubset m.seed = true
        · refine ⟨hte, ?_, hpv⟩
          unfold validateBidListSubset at hval
          cases hrec : ReconstructBidListSubset m.bidListSubset with
          | error e => rw [hrec] at hval; cases hval
          | ok subset =>
            rw [hrec] at hval
            exact ⟨subset, rfl, validateBids_ok sh.bidList subset hval⟩
        · rw [if_pos (by simp [hpv])] at h
          cases h
    · rw [if_pos (by simp [hte])] at h
      cases h

/-- Witness for C5: an event with the empty score (big-endian value 0) does
not exceed the zero threshold and is rejected with the threshold error, even
though the proof oracle accepts everything. -/
theorem claim_C5_witness :
    thresholdExceeds 0 ([] : List Byte) = false ∧
    scoreHandlerVerify (fun _ _ _ _ _ => true)
      ⟨[], 0⟩ ⟨[], [], [], [], []⟩ = .error "score does not exceed threshold" :=
  ⟨rfl, (claim_C5_score_verify (fun _ _ _ _ _ => true) ⟨[], 0⟩ ⟨[], [], [], [], []⟩).1 rfl⟩

end DuskChain

namespace DuskChain

/-! ## Accept-block lemmas -/

theorem firstExpiredIdx_lt (round : Nat) :
    ∀ (l : List Stake) (i : Nat), firstExpiredIdx round l = some i → i < l.length := by
  intro l
  induction l with
  | nil => intro i h; cases h
  | cons s rest ih =>
    intro i h
    unfold firstExpiredIdx at h
    by_cases hexp : s.endHeight < round
    · rw [if_pos hexp] at h
      cases h
      simp
    · rw [if_neg hexp] at h
      cases hrec : firstExpiredIdx round rest with
      | none => rw [hrec] at h; cases h
      | some j =>
        rw [hrec] at h
        cases h
        have := ih j hrec
        simp only [List.length_cons]
        omega

theorem firstExpiredIdx_none (round : Nat) :
    ∀ l : List Stake, firstExpiredIdx round l = none →
      ∀ s ∈ l, ¬ s.endHeight < round := by
  intro l
  induction l with
  | nil => intro _ s hs; cases hs
  | cons s0 rest ih =>
    intro h s hs
    unfold firstExpiredIdx at h
    by_cases hexp : s0.endHeight < round
    · rw [if_pos hexp] at h
      cases h
    · rw [if_neg hexp] at h
      rcases List.mem_cons.mp hs with rfl | hs'
      · exact hexp
      · cases hrec : firstExpiredIdx round rest with
        | none => exact ih hrec s hs'
        | some j => rw [hrec] at h; cases h

theorem removeExpiredStakesFuel_mem (round : Nat) :
    ∀ (fuel : Nat) (l : List Stake), ∀ s ∈ removeExpiredStakesFuel round fuel l, s ∈ l := by
  intro fuel
  induction fuel with
  | zero => intro l s hs; exact hs
  | succ fuel ih =>
    intro l s hs
    unfold removeExpiredStakesFuel at hs
    cases hidx : firstExpiredIdx round l with
    | none => rw [hidx] at hs; exact hs
    | some i =>
      rw [hidx] at hs
      exact (List.eraseIdx_sublist l i).subset (ih (l.eraseIdx i) s hs)

theorem removeExpiredStakesFuel_no_expired (round : Nat) :
    ∀ (fuel : Nat) (l : List Stake), l.length ≤ fuel →
      ∀ s ∈ removeExpiredStakesFuel round fuel l, ¬ s.endHeight < round := by
  intro fuel
  induction fuel with
  | zero =>
    intro l hl s hs
    have hnil : l = [] := List.eq_nil_of_length_eq_zero (Nat.le_zero.mp hl)
    subst hnil
    cases hs
  | succ fuel ih =>
    intro l hl s hs
    unfold removeExpiredStakesFuel at hs
    cases hidx : firstExpiredIdx round l with
    | none =>
      rw [hidx] at hs
      exact firstExpiredIdx_none round l hidx s hs
    | some i =>
      rw [hidx] at hs
      have hi := firstExpiredIdx_lt round l i hidx
      have herase := List.length_eraseIdx_add_one hi
      exact ih (l.eraseIdx i) (by omega) s hs

theorem removeExpiredProvisioners_no_expired (p : Provisioners) (round : Nat) :
    ∀ m' ∈ (removeExpiredProvisioners p round).members, ∀ s ∈ m'.stakes,
      ¬ s.endHeight < round := by
  intro m' hm' s hs
  unfold removeExpiredProvisioners at hm'
  simp only [List.mem_filterMap] at hm'
  obtain ⟨m, _, hf⟩ := hm'
  by_cases hc : ({ m with stakes := removeExpiredStakes round m.stakes } : Member).stakes.isEmpty
      ∧ ¬ m.stakes.isEmpty
  · simp only [if_pos hc] at hf
    cases hf
  · simp only [if_neg hc] at hf
    cases hf
    exact removeExpiredStakesFuel_no_expired round m.stakes.length m.stakes (le_refl _) s hs

theorem stakesFrom_removeExpired (p0 p : Provisioners) (sh round : Nat)
    (h : StakesFrom p0 sh p) :
    StakesFrom p0 sh (removeExpiredProvisioners p round) := by
  intro m' hm' s hs
  unfold removeExpiredProvisioners at hm'
  simp only [List.mem_filterMap] at hm'
  obtain ⟨m, hm, hf⟩ := hm'
  by_cases hc : ({ m with stakes := removeExpiredStakes round m.stakes } : Member).stakes.isEmpty
      ∧ ¬ m.stakes.isEmpty
  · simp only [if_pos hc] at hf
    cases hf
  · simp only [if_neg hc] at hf
    cases hf
    exact h m hm s (removeExpiredStakesFuel_mem round m.stakes.length m.stakes s hs)

theorem stakesFrom_addProvisioner (p0 p : Provisioners) (sh : Nat)
    (k : List Byte) (a eh : Nat) (h : StakesFrom p0 sh p) :
    StakesFrom p0 sh
      (match addProvisioner p k a sh eh with
        | .ok p' => p'
        | .error _ => p) := by
  unfold addProvisioner
  by_cases hk : k.length ≠ 129
  · simp only [if_pos hk]
    exact h
  · simp only [if_neg hk]
    by_cases hdup : p.members.any (fun m => m.publicKeyBLS = k) = true
    · simp only [if_pos hdup]
      intro m' hm' s hs
      simp only [List.mem_map] at hm'
      obtain ⟨m, hm, hf⟩ := hm'
      by_cases hkey : m.publicKeyBLS = k
      · rw [if_pos hkey] at hf
        subst hf
        unfold Member.addStake at hs
        rcases List.mem_append.mp hs with hs' | hs'
        · exact h m hm s hs'
        · rw [List.mem_singleton] at hs'
          subst hs'
          exact Or.inr rfl
      · rw [if_neg hkey] at hf
        subst hf
        exact h m hm s hs
    · simp only [if_neg hdup]
      intro m' hm' s hs
      rcases List.mem_append.mp hm' with hm'' | hm''
      · exact h m' hm'' s hs
      · rw [List.mem_singleton] at hm''
        subst hm''
        rw [List.mem_singleton] at hs
        subst hs
        exact Or.inr rfl

theorem stakesFrom_addConsensusNodes (p0 : Provisioners) (txs : List Tx) (sh : Nat) :
    StakesFrom p0 sh (addConsensusNodes p0 txs sh) := by
  unfold addConsensusNodes
  apply foldlInvariant (StakesFrom p0 sh)
  · intro m hm s hs
    exact Or.inl ⟨m, hm, hs⟩
  · intro p tx hp
    cases tx with
    | stake k a lock => exact stakesFrom_addProvisioner p0 p sh k a _ hp
    | bid c mm lock => exact hp
    | other => exact hp

/-- C1: for every block `B` that `Chain.AcceptBlock` accepts (the verifier,
certificate and storage steps all succeed), every stake the acceptance
introduced — i.e. every stake of the resulting provisioner set that was not
already held before — has `start_height = B.height + 2`, and the resulting
provisioner set holds no stake with `end_height < B.height` (the expired
stakes are removed during the same accept operation). -/
theorem claim_C1_accept_block_stakes
    (checkBlock : Block → Block → Except String Unit)
    (checkCert : Provisioners → Block → Except String Unit)
    (store : Except String Unit) (st : ChainState) (blk : Block)
    (hheight : blk.height + 2 < 2 ^ 64)
    (hok : (acceptBlock checkBlock checkCert store st blk).2 = .ok ()) :
    (∀ m' ∈ (acceptBlock checkBlock checkCert store st blk).1.p.members,
      ∀ s ∈ m'.stakes,
        (∃ m ∈ st.p.members, s ∈ m.stakes) ∨ s.startHeight = blk.height + 2) ∧
    (∀ m' ∈ (acceptBlock checkBlock checkCert store st blk).1.p.members,
      ∀ s ∈ m'.stakes, ¬ s.endHeight < blk.height) := by
  have hw : wrap64 (blk.height + 2) = blk.height + 2 := Nat.mod_eq_of_lt hheight
  cases hcb : checkBlock st.prevBlock blk with
  | error e =>
    unfold acceptBlock at hok
    rw [hcb] at hok
    simp at hok
  | ok u =>
    cases hcc : checkCert st.p blk with
    | error e =>
      unfold acceptBlock at hok
      rw [hcb, hcc] at hok
      simp at hok
    | ok v =>
      cases store with
      | error e =>
        unfold acceptBlock at hok
        rw [hcb, hcc] at hok
        simp at hok
      | ok w =>
        have heq : acceptBlock checkBlock checkCert (.ok w) st blk =
            (({ st with
                prevBlock := blk
                p := removeExpiredProvisioners
                  (addConsensusNodes st.p blk.txs (wrap64 (blk.height + 2)))
                  blk.height } : ChainState), .ok ()) := by
          unfold acceptBlock
          rw [hcb, hcc]
        simp only [heq, hw]
        constructor
        · intro m' hm' s hs
          exact stakesFrom_removeExpired st.p _ (blk.height + 2) blk.height
            (stakesFrom_addConsensusNodes st.p blk.txs (blk.height + 2)) m' hm' s hs
        · intro m' hm' s hs
          exact removeExpiredProvisioners_no_expired _ blk.height m' hm' s hs

/-- Witness for C1: accepting the concrete `sampleBlock` (height 5, one
stake transaction with lock 10) on the empty provisioner state succeeds, and
the resulting stakes satisfy both conclusions. -/
theorem claim_C1_witness :
    sampleBlock.height + 2 < 2 ^ 64 ∧
    (acceptBlock oracleOkBlock oracleOkCert (.ok ()) sampleState sampleBlock).2 = .ok () ∧
    ((∀ m' ∈ (acceptBlock oracleOkBlock oracleOkCert (.ok ()) sampleState sampleBlock).1.p.members,
      ∀ s ∈ m'.stakes,
        (∃ m ∈ sampleState.p.members, s ∈ m.stakes) ∨ s.startHeight = sampleBlock.height + 2) ∧
    (∀ m' ∈ (acceptBlock oracleOkBlock oracleOkCert (.ok ()) sampleState sampleBlock).1.p.members,
      ∀ s ∈ m'.stakes, ¬ s.endHeight < sampleBlock.height)) :=
  ⟨by norm_num [sampleBlock], rfl,
    claim_C1_accept_block_stakes oracleOkBlock oracleOkCert (.ok ()) sampleState sampleBlock
      (by norm_num [sampleBlock]) rfl⟩

/-- C2 (amended): in the chain variant that holds an intermediate block
(`Chain.processCandidateVerificationRequest`, `chain.go` lines 1128-1140),
candidate verification runs against the intermediate block and never against
`prev_block`: with an intermediate block held, the candidate is checked with
the intermediate block as its predecessor (independently of `prev_block`),
and with no intermediate block held the request is answered with the error
"no intermediate block hash known" without invoking the verifier at all.
The variant at `chain.go` lines 1924-1931 (`Chain.verifyCandidateBlock`), by
contrast, verifies the fetched candidate against `prev_block`: its verdict
is the verifier's outcome with `prev_block` as the predecessor (and a fetch
failure is propagated as-is, never as the intermediate-block error). -/
theorem claim_C2_verify_candidate
    (checkBlock : Block → Block → Except String Unit)
    (st : ChainState) (cm : Candidate) :
    (st.intermediateBlock = none →
      processCandidateVerificationRequest checkBlock st cm =
        .error "no intermediate block hash known" ∧
      ∀ checkBlock' : Block → Block → Except String Unit,
        processCandidateVerificationRequest checkBlock' st cm =
          processCandidateVerificationRequest checkBlock st cm) ∧
    (∀ ib, st.intermediateBlock = some ib →
      processCandidateVerificationRequest checkBlock st cm = checkBlock ib cm.block ∧
      ∀ prev : Block,
        processCandidateVerificationRequest checkBlock { st with prevBlock := prev } cm =
          checkBlock ib cm.block) ∧
    (∀ (fetch : List Byte → Except String Block) (hash : List Byte),
      (∀ e, fetch hash = .error e →
        verifyCandidateBlock fetch checkBlock st hash = .error e) ∧
      (∀ blk, fetch hash = .ok blk →
        verifyCandidateBlock fetch checkBlock st hash = checkBlock st.prevBlock blk)) := by
  refine ⟨?_, ?_, ?_⟩
  · intro hnone
    constructor
    · unfold processCandidateVerificationRequest
      rw [hnone]
    · intro checkBlock'
      unfold processCandidateVerificationRequest
      rw [hnone]
  · intro ib hib
    constructor
    · unfold processCandidateVerificationRequest
      rw [hib]
    · intro prev
      show (match st.intermediateBlock with
        | none => Except.error "no intermediate block hash known"
        | some ib => checkBlock ib cm.block) = checkBlock ib cm.block
      rw [hib]
  · intro fetch hash
    constructor
    · intro e he
      unfold verifyCandidateBlock
      rw [he]
    · intro blk hb
      unfold verifyCandidateBlock
      rw [hb]

/-- C2 counterexample: the claim as stated also covers
`Chain.verifyCandidateBlock` (`chain.go` lines 1924-1931), which refutes
"never against prev_block": on the concrete state `sampleState`, which holds
NO intermediate block, the operation does not return the error
"no intermediate block hash known" but runs the verifier with `prev_block`
(height 4) as the candidate's predecessor — the candidate is accepted here
precisely because of `prev_block`'s height, and rejected as
`VerificationFailed` when only `prev_block` is changed. -/
theorem claim_C2_counterexample :
    sampleState.intermediateBlock = none ∧
    verifyCandidateBlock (fun _ => .ok sampleBlock) oracleHeight4Block
      sampleState [] = .ok () ∧
    verifyCandidateBlock (fun _ => .ok sampleBlock) oracleHeight4Block
      sampleState [] ≠ .error "no intermediate block hash known" ∧
    verifyCandidateBlock (fun _ => .ok sampleBlock) oracleHeight4Block
      { sampleState with prevBlock := sampleBlock } [] =
      .error "VerificationFailed" :=
  ⟨rfl, rfl, fun h => Except.noConfusion h, rfl⟩

/-- Witness for C2: on the concrete state with no intermediate block, the
request is answered with the exact error string. -/
theorem claim_C2_witness :
    processCandidateVerificationRequest oracleOkBlock sampleState sampleCandidate =
      .error "no intermediate block hash known" :=
  ((claim_C2_verify_candidate oracleOkBlock sampleState sampleCandidate).1 rfl).1

/-- C3: `requestRoundResults` returns the first response received within the
timeout window that passes both the block check against `prev_block` and the
certificate check against the current provisioners — every response failing
either check is skipped — and if no response passes it returns the
"request timeout" error; in every case the chain state is left unchanged. -/
theorem claim_C3_request_round_results
    (checkBlock : Block → Block → Except String Unit)
    (checkCert : Provisioners → Block → Except String Unit)
    (st : ChainState) (responses : List Candidate) :
    (requestRoundResults checkBlock checkCert st responses).1 = st ∧
    (requestRoundResults checkBlock checkCert st responses).2 =
      (match responses.find? (rrPasses checkBlock checkCert st) with
        | some cm => .ok (({ cm.block with cert := cm.cert } : Block), cm.cert)
        | none => .error "request timeout") := by
  refine ⟨rfl, ?_⟩
  show requestRoundResultsLoop checkBlock checkCert st responses = _
  induction responses with
  | nil => rfl
  | cons cm rest ih =>
    rw [List.find?_cons]
    cases hcb : checkBlock st.prevBlock cm.block with
    | error e =>
      have hp : rrPasses checkBlock checkCert st cm = false := by
        unfold rrPasses
        rw [hcb]
        rfl
      rw [hp]
      unfold requestRoundResultsLoop
      rw [hcb]
      exact ih
    | ok u =>
      cases hcc : checkCert st.p { cm.block with cert := cm.cert } with
      | error e =>
        have hp : rrPasses checkBlock checkCert st cm = false := by
          unfold rrPasses
          rw [hcb, hcc]
          rfl
        rw [hp]
        unfold requestRoundResultsLoop
        rw [hcb]
        show (match checkCert st.p { cm.block with cert := cm.cert } with
          | .error _ => requestRoundResultsLoop checkBlock checkCert st rest
          | .ok _ => Except.ok (({ cm.block with cert := cm.cert } : Block), cm.cert)) = _
        rw [hcc]
        exact ih
      | ok v =>
        have hp : rrPasses checkBlock checkCert st cm = true := by
          unfold rrPasses
          rw [hcb, hcc]
          rfl
        rw [hp]
        unfold requestRoundResultsLoop
        rw [hcb]
        show (match checkCert st.p { cm.block with cert := cm.cert } with
          | .error _ => requestRoundResultsLoop checkBlock checkCert st rest
          | .ok _ => Except.ok (({ cm.block with cert := cm.cert } : Block), cm.cert)) = _
        rw [hcc]

end DuskChain
